import Mathlib

/-!
Verification of the multi-source price aggregation engine
(scraper backend `main.py`): price normalization, platform
identification, the per-source extraction pipeline, and the search
orchestrator.

Modelling conventions:
* Python `float` values are modelled as exact rationals (`ℚ`); every
  price literal reaching a comparison in the source is a short decimal
  numeral, so rounding never changes a branch taken by the code.
* Python strings are modelled as Lean `String` / `List Char`; `\d` and
  `\s` in the source's regexes are modelled as ASCII digits and ASCII
  whitespace (the inputs the code handles are ASCII price strings).
* Fallible Python code (functions that may raise, or return `None`)
  is modelled with `Option` / `Except`.
* Regular-expression calls (`re.search`, `re.findall`) are modelled by
  a small fuel-indexed backtracking matcher with Python's semantics:
  leftmost match, greedy/lazy quantifier priority, one capture group
  per pattern.
-/

set_option maxRecDepth 10000

namespace Hype

/-! ## Python `float(...)` on numeric strings -/

/-- Numeric value of a list of ASCII digit characters, most significant
first (`foldl`-style accumulation, as the usual base-10 reading). -/
def digitsVal (l : List Char) : Nat :=
  l.foldl (fun a c => a * 10 + (c.toNat - 48)) 0

/-- Fractional value of the digit list `l` read after a decimal point. -/
def fracVal (l : List Char) : ℚ :=
  (digitsVal l : ℚ) / ((10 : ℚ) ^ l.length)

def allDigits (l : List Char) : Bool :=
  l.all Char.isDigit

/-- Split a character list at the first occurrence of `c`; `none` when
`c` does not occur. -/
def splitAtChar (c : Char) : List Char → Option (List Char × List Char)
  | [] => none
  | x :: xs =>
    if x = c then some ([], xs)
    else (splitAtChar c xs).map (fun p => (x :: p.1, p.2))

/-- Mantissa of a Python float literal: `digits [. digits]` or
`. digits`, with at least one digit in total. -/
def pyMantissa? (s : List Char) : Option ℚ :=
  match splitAtChar '.' s with
  | none => if s ≠ [] ∧ allDigits s then some (digitsVal s : ℚ) else none
  | some (a, b) =>
    if (a ≠ [] ∨ b ≠ []) ∧ allDigits a ∧ allDigits b then
      some ((digitsVal a : ℚ) + fracVal b)
    else none

/-- Optional leading sign. -/
def pySign : List Char → (ℚ → ℚ) × List Char
  | [] => (id, [])
  | c :: rest =>
    if c = '+' then (id, rest)
    else if c = '-' then (fun q => -q, rest)
    else (id, c :: rest)

/-- Exponent part after `e`/`E`: optional sign then a nonempty digit
string. -/
def pyExp? (s : List Char) : Option ℤ :=
  let (sgn, rest) := pySign s
  if rest ≠ [] ∧ allDigits rest then some ((sgn (digitsVal rest : ℚ)).num) else none

def isPyWs (c : Char) : Bool :=
  c = ' ' ∨ c = '\t' ∨ c = '\n' ∨ c = '\r'

/-- Strip leading and trailing whitespace. -/
def trimWs (s : List Char) : List Char :=
  ((s.dropWhile isPyWs).reverse.dropWhile isPyWs).reverse

/-- Model of Python `float(str)` restricted to the literal shapes that
occur in this codebase: optional sign, decimal mantissa, optional
decimal exponent.  `inf`/`nan`/underscored literals are not modelled
(none appears in any string the source feeds to `float`). -/
def pyFloat? (s : List Char) : Option ℚ :=
  match splitAtChar 'e' (pySign (trimWs s)).2 with
  | some (m, e) =>
    match pyMantissa? m, pyExp? e with
    | some mv, some ev => some ((pySign (trimWs s)).1 (mv * (10 : ℚ) ^ ev))
    | _, _ => none
  | none =>
    match splitAtChar 'E' (pySign (trimWs s)).2 with
    | some (m, e) =>
      match pyMantissa? m, pyExp? e with
      | some mv, some ev => some ((pySign (trimWs s)).1 (mv * (10 : ℚ) ^ ev))
      | _, _ => none
    | none => (pyMantissa? (pySign (trimWs s)).2).map (pySign (trimWs s)).1

/-! ## The result model (`PriceResult`) -/

/-- Model of the `PriceResult` pydantic model.  The `scraped_at`
timestamp is wall-clock output and is not modelled. -/
structure PriceResult where
  platform : String
  platform_name : String
  product_name : String
  price : ℚ
  currency : String
  url : String
  seller : Option String := none
  rating : Option ℚ := none
  review_count : Option ℤ := none
  image_url : Option String := none
  in_stock : Bool := true
  source : String := "direct"
  deriving DecidableEq, Repr

/-! ## `_parse_turkish_price` -/

/-- Model of `_parse_turkish_price`: keep only digits and separators,
strip all dots (thousands), turn the comma into a decimal point, then
`float(...)` with failures mapped to `None`. -/
def parse_turkish_price (text : String) : Option ℚ :=
  if text.data = [] then none
  else
    let cleaned := (trimWs text.data).filter (fun c => c.isDigit || c = '.' || c = ',')
    if cleaned = [] then none
    else
      pyFloat? ((cleaned.filter (fun c => c ≠ '.')).map (fun c => if c = ',' then '.' else c))

/-! ## A small backtracking regex engine

Models the `re` calls of the source: leftmost match, greedy (`*`, `?`)
and lazy (`*?`) quantifier priority, one capture group per pattern.
Fuel bounds the recursion depth; every concrete call below is given
ample fuel, and all universal theorems hold for every fuel value. -/

inductive RE where
  | eps : RE
  | chr : (Char → Bool) → RE
  | cat : RE → RE → RE
  | alt : RE → RE → RE
  | starG : RE → RE
  | starL : RE → RE

/-- Greedy `?`. -/
def RE.optG (a : RE) : RE := .alt a .eps

/-- `+` (greedy). -/
def RE.plus (a : RE) : RE := .cat a (.starG a)

/-- Literal character. -/
def RE.lit (c : Char) : RE := .chr (fun d => d = c)

/-- Literal string. -/
def RE.str (s : String) : RE :=
  s.data.foldr (fun c r => .cat (.lit c) r) .eps

/-- CPS backtracking matcher.  `matchRE fuel r s k` explores the ways
`r` can consume a prefix of `s` in priority order and feeds each
remaining suffix to the continuation `k`, returning the first success.
The length guard inside the star cases cuts vacuous iterations in
which the body consumed nothing (Python's quantifiers likewise never
loop on an empty match). -/
def matchRE {α : Type} : Nat → RE → List Char → (List Char → Option α) → Option α
  | 0, _, _, _ => none
  | _ + 1, .eps, s, k => k s
  | _ + 1, .chr _, [], _ => none
  | _ + 1, .chr p, c :: cs, k => if p c then k cs else none
  | n + 1, .cat a b, s, k => matchRE n a s (fun s1 => matchRE n b s1 k)
  | n + 1, .alt a b, s, k => (matchRE n a s k).orElse (fun _ => matchRE n b s k)
  | n + 1, .starG a, s, k =>
    (matchRE n a s (fun s1 =>
      if s1.length = s.length then none else matchRE n (.starG a) s1 k)).orElse
      (fun _ => k s)
  | n + 1, .starL a, s, k =>
    (k s).orElse (fun _ =>
      matchRE n a s (fun s1 =>
        if s1.length = s.length then none else matchRE n (.starL a) s1 k))

/-- A source pattern with exactly one capture group:
`pre ( grp ) post`. -/
structure CapPattern where
  pre : RE
  grp : RE
  post : RE

/-- Try to match a capture pattern at the start of `s`; on success
return the captured group and the suffix after the whole match. -/
def matchTripleAt (fuel : Nat) (p : CapPattern) (s : List Char) :
    Option (List Char × List Char) :=
  matchRE fuel p.pre s (fun s1 =>
    matchRE fuel p.grp s1 (fun s2 =>
      matchRE fuel p.post s2 (fun s3 =>
        some (s1.take (s1.length - s2.length), s3))))

/-- Model of `re.search`: scan match positions left to right. -/
def reSearch (fuel : Nat) (p : CapPattern) : List Char → Option (List Char × List Char)
  | [] => matchTripleAt fuel p []
  | c :: t =>
    (matchTripleAt fuel p (c :: t)).orElse (fun _ => reSearch fuel p t)

/-- Model of `re.findall` with one group: repeatedly search, each time
resuming after the end of the previous whole match.  (None of the
source's patterns can match the empty string, so the progress guard is
never the deciding branch.) -/
def reFindall (fuel : Nat) (p : CapPattern) : Nat → List Char → List (List Char)
  | 0, _ => []
  | n + 1, s =>
    match reSearch fuel p s with
    | none => []
    | some (g, rest) =>
      g :: (if rest.length < s.length then reFindall fuel p n rest else [])

/-- Ample fuel for the engine on input `s`. -/
def fuelFor (s : List Char) : Nat :=
  120 * (s.length + 10)

/-! ## Engine facts -/

/-- `ReqC q r`: every way for `r` to match must consume at least one
character satisfying `q`. -/
inductive ReqC (q : Char → Bool) : RE → Prop
  | chr {p : Char → Bool} (h : ∀ c, p c = true → q c = true) : ReqC q (.chr p)
  | catL {a b : RE} (h : ReqC q a) : ReqC q (.cat a b)
  | catR {a b : RE} (h : ReqC q b) : ReqC q (.cat a b)
  | alt {a b : RE} (ha : ReqC q a) (hb : ReqC q b) : ReqC q (.alt a b)

/-! ## `_extract_price_from_text` -/

def reDigit : RE := .chr Char.isDigit

def reWsStar : RE := .starG (.chr isPyWs)

/-- `\d{1,3}` (greedy). -/
def rep13 : RE := .cat reDigit (.optG (.cat reDigit (.optG reDigit)))

/-- `\d{1,3}(?:,\d{3})*(?:\.\d{2})?` — US-style number. -/
def usNum : RE :=
  .cat rep13
    (.cat (.starG (.cat (RE.lit ',') (.cat reDigit (.cat reDigit reDigit))))
      (.optG (.cat (RE.lit '.') (.cat reDigit reDigit))))

/-- `\d{1,3}(?:\.\d{3})*(?:,\d{2})?` — EU/TR-style number. -/
def euNum : RE :=
  .cat rep13
    (.cat (.starG (.cat (RE.lit '.') (.cat reDigit (.cat reDigit reDigit))))
      (.optG (.cat (RE.lit ',') (.cat reDigit reDigit))))

/-- The six price patterns of `_extract_price_from_text`, in source
order. -/
def pricePatterns : List CapPattern :=
  [ ⟨.cat (RE.lit '$') reWsStar, usNum, .eps⟩,
    ⟨.eps, usNum, .cat reWsStar (RE.lit '$')⟩,
    ⟨.cat (RE.lit '€') reWsStar, euNum, .eps⟩,
    ⟨.eps, euNum, .cat reWsStar (RE.lit '€')⟩,
    ⟨.eps, euNum, .cat reWsStar (.cat (RE.lit 'T') (RE.lit 'L'))⟩,
    ⟨.cat (RE.lit '₺') reWsStar, euNum, .eps⟩ ]

/-- Is the currency hint one of the comma-as-decimal locales? -/
def isEuCurrency (currency : String) : Bool :=
  currency = "€" ∨ currency = "₺" ∨ currency = "TL" ∨ currency = "TRY"

/-- The separator cleanup applied to a matched group before
`float(...)`: EU/TR currencies drop dots and turn the comma into a
point; otherwise commas are dropped. -/
def normalizeGroup (eu : Bool) (g : List Char) : List Char :=
  if eu then (g.filter (fun c => c ≠ '.')).map (fun c => if c = ',' then '.' else c)
  else g.filter (fun c => c ≠ ',')

/-- The pattern loop of `_extract_price_from_text`: first pattern whose
match converts to a float wins. -/
def tryPricePatterns (eu : Bool) (text : List Char) : List CapPattern → Option ℚ
  | [] => none
  | p :: ps =>
    match reSearch (fuelFor text) p text with
    | none => tryPricePatterns eu text ps
    | some (g, _) =>
      match pyFloat? (normalizeGroup eu g) with
      | some v => some v
      | none => tryPricePatterns eu text ps

/-- Model of `_extract_price_from_text`. -/
def extract_price_from_text (text : String) (currency : String) : Option ℚ :=
  if text.data = [] then none
  else tryPricePatterns (isEuCurrency currency) text.data pricePatterns

/-! ## `_identify_platform` -/

/-- Does `hay` start with `needle`? -/
def leadsWith : List Char → List Char → Bool
  | [], _ => true
  | _ :: _, [] => false
  | a :: as, b :: bs => a = b && leadsWith as bs

/-- Python's `needle in hay` substring test. -/
def hasSub (needle : List Char) : List Char → Bool
  | [] => leadsWith needle []
  | c :: cs => leadsWith needle (c :: cs) || hasSub needle cs

/-- Python `str.lower()`, character-wise (all labels matched by the
source are ASCII, where this agrees with Python). -/
def pyLower (s : String) : String :=
  String.mk (s.data.map Char.toLower)

/-- The static keyword table of `_identify_platform`, in source
(insertion) order: `(keyword, platform id, platform name)`. -/
def platform_mappings : List (String × String × String) :=
  [ ("amazon", "amazon_us", "Amazon"),
    ("walmart", "walmart", "Walmart"),
    ("best buy", "bestbuy", "Best Buy"),
    ("bestbuy", "bestbuy", "Best Buy"),
    ("target", "target", "Target"),
    ("ebay", "ebay", "eBay"),
    ("newegg", "newegg", "Newegg"),
    ("b&h", "bh", "B&H Photo"),
    ("trendyol", "trendyol", "Trendyol"),
    ("hepsiburada", "hepsiburada", "Hepsiburada"),
    ("n11", "n11", "n11"),
    ("mediamarkt", "mediamarkt", "MediaMarkt"),
    ("saturn", "saturn", "Saturn") ]

/-- Model of `_identify_platform`.  The `region` parameter is accepted
and ignored, as in the source. -/
def identify_platform (seller : Option String) (region : String) : String × String :=
  match seller with
  | none => ("unknown", "Unknown")
  | some s =>
    if s = "" then ("unknown", "Unknown")
    else
      let low := pyLower s
      match platform_mappings.find? (fun m => hasSub m.1.data low.data) with
      | some m => (m.2.1, m.2.2)
      | none => ("other", s)

/-! ## `_parse_google_shopping_scripts` -/

/-- `<script[^>]*>(.*?)</script>` with `re.DOTALL`: the script-block
pattern (the capture group is the block body, matched lazily). -/
def scriptBlockPat : CapPattern :=
  ⟨.cat (RE.str "<script") (.cat (.starG (.chr (fun c => c ≠ '>'))) (RE.lit '>')),
   .starL (.chr (fun _ => true)),
   RE.str "</script>"⟩

/-- `"title":\s*"([^"]+)"`. -/
def titlePat : CapPattern :=
  ⟨.cat (RE.str "\"title\":") (.cat reWsStar (RE.lit '"')),
   RE.plus (.chr (fun c => c ≠ '"')),
   RE.lit '"'⟩

/-- `"price":\s*"?(\d+\.?\d*)"?`. -/
def priceScriptPat : CapPattern :=
  ⟨.cat (RE.str "\"price\":") (.cat reWsStar (.optG (RE.lit '"'))),
   .cat (RE.plus reDigit) (.cat (.optG (RE.lit '.')) (.starG reDigit)),
   .optG (RE.lit '"')⟩

/-- All groups matched by `pat` in `s` (Python `re.findall`). -/
def findallIn (pat : CapPattern) (s : List Char) : List (List Char) :=
  reFindall (fuelFor s) pat (s.length + 1) s

/-- Offers one script block contributes in
`_parse_google_shopping_scripts`: blocks lacking a `"price"` or
`"title"` key are skipped; the i-th title is paired with the i-th
price; a pair is emitted only when the price parses and lies in
`(0, 100000]`. -/
def scriptBlockOffers (currency : String) (max_results : Nat) (block : List Char) :
    List PriceResult :=
  if ¬ (hasSub ("\"price\"").data block = true ∧ hasSub ("\"title\"").data block = true) then
    []
  else
    (List.range (min (findallIn titlePat block).length
        (min (findallIn priceScriptPat block).length max_results))).filterMap
      (fun i =>
        match (findallIn titlePat block).get? i, (findallIn priceScriptPat block).get? i with
        | some t, some pstr =>
          match pyFloat? pstr with
          | none => none
          | some price =>
            if price ≤ 0 ∨ price > 100000 then none
            else some
              { platform := "google_shopping",
                platform_name := "Google Shopping",
                product_name := String.mk t,
                price := price,
                currency := currency,
                url := "",
                source := "google_shopping" }
        | _, _ => none)

/-- Model of `_parse_google_shopping_scripts`: scan every inline
`<script>` block and accumulate its contributed offers. -/
def parse_google_shopping_scripts (html : String) (currency : String)
    (max_results : Nat) : List PriceResult :=
  let blocks := findallIn scriptBlockPat html.data
  blocks.foldl (fun results block =>
    results ++ scriptBlockOffers currency max_results block) []

/-! ## `_parse_jsonld_product` and helpers -/

/-- JSON values, as decoded by `json.loads`. -/
inductive JValue where
  | null : JValue
  | bool : Bool → JValue
  | num : ℚ → JValue
  | str : String → JValue
  | arr : List JValue → JValue
  | obj : List (String × JValue) → JValue
  deriving Repr

/-- Python dict truthiness and friends. -/
def jTruthy : JValue → Bool
  | .null => false
  | .bool b => b
  | .num q => decide (q ≠ 0)
  | .str s => decide (s ≠ "")
  | .arr l => !l.isEmpty
  | .obj f => !f.isEmpty

/-- `d.get(key, dflt)` on an object; `dflt` for non-objects is never
exercised by the source (it guards with `isinstance(..., dict)`). -/
def jget (j : JValue) (key : String) (dflt : JValue) : JValue :=
  match j with
  | .obj fields =>
    match fields.find? (fun f => f.1 = key) with
    | some f => f.2
    | none => dflt
  | _ => dflt

/-- Model of `_safe_float`: strings lose commas and spaces before
`float(...)`; numbers pass through; booleans coerce as 0/1; any other
value makes `float` raise, which the source catches into `None`. -/
def safe_float (v : JValue) : Option ℚ :=
  match v with
  | .num q => some q
  | .bool b => some (if b then 1 else 0)
  | .str s => pyFloat? (s.data.filter (fun c => c ≠ ',' ∧ c ≠ ' '))
  | _ => none

/-- Truncation toward zero, as Python `int(float(...))`. -/
def truncQ (q : ℚ) : ℤ :=
  if q ≥ 0 then ⌊q⌋ else ⌈q⌉

/-- Model of `_safe_int` (`int(float(str(val).replace(",", "")))`).
`str(val)` round-trips numbers and strings; other values produce text
`float` cannot parse, so the source returns `None` for them. -/
def safe_int (v : JValue) : Option ℤ :=
  match v with
  | .num q => some (truncQ q)
  | .bool b => some (if b then 1 else 0)
  | .str s => (pyFloat? (s.data.filter (fun c => c ≠ ','))).map truncQ
  | _ => none

/-- Python `a or b` on the results of `_safe_float` (a parsed `0.0` is
falsy and falls through to `b`). -/
def orFloat (a b : Option ℚ) : Option ℚ :=
  match a with
  | some q => if q = 0 then b else some q
  | none => b

/-- Model of `_get_offer_price`:
`_safe_float(offer.get("price")) or _safe_float(offer.get("lowPrice"))`
on dict offers, `None` otherwise. -/
def get_offer_price (offer : JValue) : Option ℚ :=
  match offer with
  | .obj _ => orFloat (safe_float (jget offer ("price") .null))
      (safe_float (jget offer ("lowPrice") .null))
  | _ => none

/-- Seller extraction used in both offer branches:
`offer.get("seller", {}).get("name") if isinstance(offer.get("seller"), dict) else offer.get("seller")`.
Non-string seller payloads are not modelled past this point (pydantic
coercion of such values is outside the core). -/
def sellerOf (offer : JValue) : Option String :=
  match jget offer ("seller") .null with
  | .obj fs =>
    match jget (.obj fs) ("name") .null with
    | .str s => some s
    | _ => none
  | .str s => some s
  | _ => none

/-- `avail = offer.get("availability", ""); "OutOfStock" not in avail if avail else True`.
Only string availability values are modelled (a non-string makes the
source raise and the whole item be skipped by the caller). -/
def stockOf (offer : JValue) : Bool :=
  match jget offer ("availability") (.str "") with
  | .str s => if s = "" then true else !(hasSub ("OutOfStock").data s.data)
  | _ => true

/-- State threaded through the multi-offer loop of
`_parse_jsonld_product`. -/
structure OfferScan where
  best : Option ℚ
  seller : Option String
  url : String
  in_stock : Bool

/-- One iteration of the `offers` list loop: a truthy price that beats
the current best wins and drags its seller/url/availability along. -/
def scanOffer (acc : OfferScan) (offer : JValue) : OfferScan :=
  match get_offer_price offer with
  | none => acc
  | some p =>
    if (!(p == 0)) && (match acc.best with | none => true | some b => decide (p < b)) then
      { best := some p,
        seller := sellerOf offer,
        url := (match jget offer ("url") (.str acc.url) with
                | .str u => u
                | _ => acc.url),
        in_stock := stockOf offer }
    else acc

/-- Price/seller/url/stock resolution from the `offers` field of a
JSON-LD product (list, `AggregateOffer`, or single offer). -/
def resolveOffers (offers : JValue) (url0 : String) : OfferScan :=
  match offers with
  | .arr l => l.foldl scanOffer ⟨none, none, url0, true⟩
  | .obj _ =>
    if (match jget offers ("@type") (.str "") with
        | .str t => t == "AggregateOffer"
        | _ => false) then
      ⟨orFloat (safe_float (jget offers ("lowPrice") .null))
        (safe_float (jget offers ("price") .null)), none, url0, true⟩
    else
      ⟨get_offer_price offers, sellerOf offers,
        (match jget offers ("url") (.str url0) with
         | .str u => u
         | _ => url0),
        stockOf offers⟩
  | _ => ⟨none, none, url0, true⟩

/-- Image field normalization of `_parse_jsonld_product`: lists take
their first entry, dicts their `url`; only string results survive
(a non-string leftover would fail pydantic validation in the source,
skipping the item; the model drops just the image). -/
def imageOf (product : JValue) : Option String :=
  match jget product ("image") (.str "") with
  | .str s => if s = "" then none else some s
  | .arr (x :: _) =>
    (match x with
     | .str s => if s = "" then none else some s
     | _ => none)
  | .obj fs =>
    (match jget (.obj fs) ("url") (.str "") with
     | .str s => if s = "" then none else some s
     | _ => none)
  | _ => none

/-- String content of a JSON value, with `""` for non-strings. -/
def jstrD : JValue → String
  | .str u => u
  | _ => ""

/-- Rating extraction of `_parse_jsonld_product`
(`agg_rating = product.get("aggregateRating", {}); if agg_rating: ...`).
A non-dict truthy `aggregateRating` makes the source raise (the caller
then skips the whole item); the model returns no rating there, which
can only construct fewer invariant-violating offers, never more. -/
def ratingOf (product : JValue) : Option ℚ :=
  match jget product ("aggregateRating") (.obj []) with
  | .obj [] => none
  | .obj fs => safe_float (jget (.obj fs) ("ratingValue") .null)
  | _ => none

/-- Review-count extraction of `_parse_jsonld_product`
(`reviewCount` falling back to `ratingCount` by truthiness). -/
def reviewCountOf (product : JValue) : Option ℤ :=
  match jget product ("aggregateRating") (.obj []) with
  | .obj [] => none
  | .obj fs =>
    if jTruthy (jget (.obj fs) ("reviewCount") .null) then
      safe_int (jget (.obj fs) ("reviewCount") .null)
    else
      safe_int (jget (.obj fs) ("ratingCount") .null)
  | _ => none

/-- Model of `_parse_jsonld_product`.  `none` stands both for the
source's explicit `return None` and for an exception swallowed by the
caller (`extract_products_from_jsonld` wraps every item in
`try/except: continue`). -/
def parse_jsonld_product (product : JValue) (platform platform_name currency source : String) :
    Option PriceResult :=
  match product with
  | .obj fields =>
    if fields.isEmpty then none   -- `if not product`
    else
      match jget (JValue.obj fields) ("name") (.str "") with
      | .str name =>
        if name = "" ∨ name.length < 3 then none
        else
          match (resolveOffers (jget (JValue.obj fields) ("offers") (.obj []))
              (jstrD (jget (JValue.obj fields) ("url") (.str "")))).best with
          | none => none
          | some price =>
            if price ≤ 0 then none   -- `if not price or price <= 0`
            else
              some
                { platform := platform,
                  platform_name := platform_name,
                  product_name := name,
                  price := price,
                  currency := currency,
                  url := (resolveOffers (jget (JValue.obj fields) ("offers") (.obj []))
                    (jstrD (jget (JValue.obj fields) ("url") (.str "")))).url,
                  seller := (resolveOffers (jget (JValue.obj fields) ("offers") (.obj []))
                    (jstrD (jget (JValue.obj fields) ("url") (.str "")))).seller,
                  rating := ratingOf (JValue.obj fields),
                  review_count := reviewCountOf (JValue.obj fields),
                  image_url := imageOf (JValue.obj fields),
                  in_stock := (resolveOffers (jget (JValue.obj fields) ("offers") (.obj []))
                    (jstrD (jget (JValue.obj fields) ("url") (.str "")))).in_stock,
                  source := source }
      | _ => none
  | _ => none

/-! ## The Google Shopping strategy pipeline

`search_google_shopping` (after the fetch, which is an external
collaborator) combines three extraction strategies.  `jsonld_results`
is what Strategy 1 parsed; `html_candidates` are the product cards the
selector-based Strategy 2 parses successfully in document order (the
source truncates them to its remaining budget, modelled by `take`);
`script_results` is the output of Strategy 3 on the same page. -/

/-- Python `str.lower()` on a whole string. -/
def lowerName (r : PriceResult) : String :=
  pyLower r.product_name

/-- Strategy 3 merge step of `search_google_shopping`: append script
results whose lowercased product name is not already present. -/
def addScriptDedup (results script_results : List PriceResult) : List PriceResult :=
  (script_results.foldl
    (fun (acc : List PriceResult × List String) sr =>
      let n := lowerName sr
      if n ∈ acc.2 then acc else (acc.1 ++ [sr], acc.2 ++ [n]))
    (results, results.map lowerName)).1

/-- Strategy 2 extension step of `search_google_shopping`: selector
results are consulted only while fewer than `max_results` offers are
collected, with the remaining budget. -/
def gsAfterHtml (results html_candidates : List PriceResult) (max_results : Nat) :
    List PriceResult :=
  if results.length < max_results then
    results ++ html_candidates.take (max_results - results.length)
  else results

/-- Strategy 3 extension step of `search_google_shopping`: script
results are consulted only while fewer than 3 offers are collected. -/
def gsAfterScripts (results script_results : List PriceResult) : List PriceResult :=
  if results.length < 3 then addScriptDedup results script_results
  else results

/-- Model of the strategy sequencing in `search_google_shopping`
(lines 423-445): JSON-LD first; selector-based HTML parsing next;
inline-script extraction last; final truncation to `max_results`. -/
def search_google_shopping_pipeline (jsonld_results html_candidates script_results :
    List PriceResult) (max_results : Nat) : List PriceResult :=
  (gsAfterScripts (gsAfterHtml jsonld_results html_candidates max_results)
    script_results).take max_results

/-- The strategy order the specification describes, as a definition to
compare against the source's order: structured data first, then the
embedded-script strategy below the small threshold, then the
selector-based strategy. -/
def spec_claimed_pipeline (jsonld_results html_candidates script_results :
    List PriceResult) (max_results : Nat) : List PriceResult :=
  (gsAfterHtml (gsAfterScripts jsonld_results script_results)
    html_candidates max_results).take max_results

/-! ## The orchestrator (`search_region`, `search_products`) -/

/-- Outcome of one source task as observed by
`asyncio.gather(..., return_exceptions=True)`: a result list, or a
captured exception (a timeout is such an exception). -/
inductive TaskOutcome where
  | ok : List PriceResult → TaskOutcome
  | exn : TaskOutcome
  deriving Repr

/-- The static source list `search_region` builds per region. -/
def region_sources (region : String) : List String :=
  if region = "us" then ["google_shopping", "amazon_us"]
  else if region = "tr" then ["akakce", "cimri"]
  else if region = "eu" then ["google_shopping_eu"]
  else []

/-- The merge step of `search_region`: skip exceptions, concatenate
result lists. -/
def merge_ok (outcomes : List TaskOutcome) : List PriceResult :=
  outcomes.foldl (fun acc o =>
    match o with
    | .ok l => acc ++ l
    | .exn => acc) []

/-- The dedup key of `search_region`:
`re.sub(r'[^a-z0-9]', '', r.product_name.lower())[:50]`. -/
def dedup_key (r : PriceResult) : List Char :=
  ((r.product_name.data.map Char.toLower).filter
    (fun c => ('a' ≤ c && c ≤ 'z') || ('0' ≤ c && c ≤ '9'))).take 50

/-- The seen-set dedup loop of `search_region`. -/
def dedup_offers (l : List PriceResult) : List PriceResult :=
  (l.foldl
    (fun (acc : List PriceResult × List (List Char)) r =>
      let key := dedup_key r
      if key ∈ acc.2 then acc else (acc.1 ++ [r], acc.2 ++ [key]))
    ([], [])).1

/-- Price comparison used by `unique.sort(key=lambda x: x.price)`. -/
def priceLe (a b : PriceResult) : Bool :=
  decide (a.price ≤ b.price)

/-- Model of `search_region`.  The per-source fetch/extract tasks are
external collaborators; `outcomes` lists what `asyncio.gather`
delivered for them, in task order.  Python's `list.sort` is stable;
`List.mergeSort` is the stable sort, so it is the faithful model. -/
def search_region (region : String) (outcomes : List TaskOutcome) (max_results : Nat) :
    List PriceResult × List String :=
  let all_results := merge_ok outcomes
  let unique := dedup_offers all_results
  let sorted := unique.mergeSort priceLe
  (sorted.take max_results, region_sources region)

/-- Platforms listed by the endpoint: `list(set(...))` — the set's
iteration order is unspecified in Python; the model fixes
first-occurrence order. -/
def platforms_found (results : List PriceResult) : List String :=
  (results.map (fun r => r.platform)).eraseDups

/-- Model of the `SearchResponse` payload (the wall-clock
`search_time_ms` field is not modelled). -/
structure SearchResponse where
  query : String
  region : String
  platforms_searched : List String
  results : List PriceResult
  total_results : Nat
  sources_used : List String
  deriving Repr

/-- Model of the `/api/search` endpoint `search_products`: the region
guard runs before any source task is created; an unknown region
raises `HTTPException(400, ...)`, modelled as `Except.error` with the
status code and message. -/
def search_products (q : String) (region : String) (max_results : Nat)
    (outcomes : List TaskOutcome) : Except (Nat × String) SearchResponse :=
  if ¬ (region = "us" ∨ region = "tr" ∨ region = "eu") then
    .error (400, "Unsupported region. Use: us, tr, eu")
  else
    let rs := search_region region outcomes max_results
    .ok
      { query := q,
        region := region,
        platforms_searched := platforms_found rs.1,
        results := rs.1,
        total_results := rs.1.length,
        sources_used := rs.2 }

/-! ## Dedup facts -/

/-- Recursive specification of "keep the first offer in merge order
for each key". -/
def keep_first_by_key : List PriceResult → List PriceResult
  | [] => []
  | x :: xs =>
    x :: keep_first_by_key (xs.filter (fun y => !(dedup_key y == dedup_key x)))
termination_by l => l.length
decreasing_by
  simpa using Nat.lt_succ_of_le (List.length_filter_le _ xs)

/-- Structured form of the seen-set loop. -/
def dedup_aux (seen : List (List Char)) : List PriceResult → List PriceResult
  | [] => []
  | r :: rest =>
    if dedup_key r ∈ seen then dedup_aux seen rest
    else r :: dedup_aux (seen ++ [dedup_key r]) rest

/-- Concrete offer template for the worked examples. -/
def mkOffer (name : String) (price : ℚ) : PriceResult :=
  { platform := "google_shopping", platform_name := "Google Shopping",
    product_name := name, price := price, currency := "$", url := "",
    source := "google_shopping" }

def appleOffer1 : PriceResult := mkOffer ("Apple iPhone 16 Pro, 128GB") 999

def appleOffer2 : PriceResult := mkOffer ("apple iphone 16 pro 128gb!!") 949

def offer999 : PriceResult := mkOffer ("Samsung Galaxy S25") 999

def offer899 : PriceResult := mkOffer ("Google Pixel 9") 899

def offer1099 : PriceResult := mkOffer ("Apple iPhone 16") 1099

def offerA : PriceResult := mkOffer ("Alpha Gadget") 10

def offerB : PriceResult := mkOffer ("Beta Gadget") 20

def offerC : PriceResult := mkOffer ("Gamma Gadget") 30

def offerS : PriceResult := mkOffer ("Delta Gadget") 40

/-- Offers contributed by one task outcome. -/
def outcomeOffers : TaskOutcome → List PriceResult
  | .ok l => l
  | .exn => []

/-! ## Theorems -/

/-- Soundness of the matcher: a successful run splits the input into a
consumed part and a rest accepted by the continuation, and the
consumed part contains a `q`-character for every `q` the expression
requires. -/
theorem matchRE_split {α : Type} :
    ∀ (fuel : Nat) (r : RE) (s : List Char) (k : List Char → Option α) (v : α),
      matchRE fuel r s k = some v →
      ∃ c rest, s = c ++ rest ∧ k rest = some v ∧
        ∀ q, ReqC q r → ∃ ch ∈ c, q ch = true := by
  intro fuel
  induction fuel with
  | zero => intro r s k v h; simp [matchRE] at h
  | succ n ih =>
    intro r s k v h
    cases r with
    | eps =>
      exact ⟨[], s, rfl, h, fun q hq => nomatch hq⟩
    | chr p =>
      cases s with
      | nil => simp [matchRE] at h
      | cons c cs =>
        simp only [matchRE] at h
        by_cases hp : p c = true
        · rw [if_pos hp] at h
          refine ⟨[c], cs, rfl, h, fun q hq => ?_⟩
          cases hq with
          | chr hall => exact ⟨c, List.mem_singleton.mpr rfl, hall c hp⟩
        · rw [if_neg hp] at h; exact absurd h (by simp)
    | cat a b =>
      simp only [matchRE] at h
      obtain ⟨c1, r1, hs1, hk1, hreq1⟩ := ih a s _ v h
      obtain ⟨c2, r2, hs2, hk2, hreq2⟩ := ih b r1 k v hk1
      refine ⟨c1 ++ c2, r2, by rw [hs1, hs2, List.append_assoc], hk2, fun q hq => ?_⟩
      cases hq with
      | catL hr =>
        obtain ⟨ch, hm, hqc⟩ := hreq1 q hr
        exact ⟨ch, List.mem_append_left _ hm, hqc⟩
      | catR hr =>
        obtain ⟨ch, hm, hqc⟩ := hreq2 q hr
        exact ⟨ch, List.mem_append_right _ hm, hqc⟩
    | alt a b =>
      simp only [matchRE] at h
      rcases ho : matchRE n a s k with _ | w
      · rw [ho] at h; simp [Option.orElse] at h
        obtain ⟨c, rest, hs, hk, hreq⟩ := ih b s k v h
        refine ⟨c, rest, hs, hk, fun q hq => ?_⟩
        cases hq with
        | alt ha hb => exact hreq q hb
      · rw [ho] at h; simp [Option.orElse] at h
        subst h
        obtain ⟨c, rest, hs, hk, hreq⟩ := ih a s k w ho
        refine ⟨c, rest, hs, hk, fun q hq => ?_⟩
        cases hq with
        | alt ha hb => exact hreq q ha
    | starG a =>
      simp only [matchRE] at h
      rcases ho : matchRE n a s
          (fun s1 => if s1.length = s.length then none else matchRE n (.starG a) s1 k) with _ | w
      · rw [ho] at h; simp [Option.orElse] at h
        exact ⟨[], s, rfl, h, fun q hq => nomatch hq⟩
      · rw [ho] at h; simp [Option.orElse] at h
        subst h
        obtain ⟨c1, r1, hs1, hk1, _⟩ := ih a s _ w ho
        by_cases hl : r1.length = s.length
        · rw [if_pos hl] at hk1; exact absurd hk1 (by simp)
        · rw [if_neg hl] at hk1
          obtain ⟨c2, r2, hs2, hk2, _⟩ := ih (.starG a) r1 k w hk1
          exact ⟨c1 ++ c2, r2, by rw [hs1, hs2, List.append_assoc], hk2,
            fun q hq => nomatch hq⟩
    | starL a =>
      simp only [matchRE] at h
      rcases ho : k s with _ | w
      · rw [ho] at h; simp [Option.orElse] at h
        obtain ⟨c1, r1, hs1, hk1, _⟩ := ih a s _ v h
        by_cases hl : r1.length = s.length
        · rw [if_pos hl] at hk1; exact absurd hk1 (by simp)
        · rw [if_neg hl] at hk1
          obtain ⟨c2, r2, hs2, hk2, _⟩ := ih (.starL a) r1 k v hk1
          exact ⟨c1 ++ c2, r2, by rw [hs1, hs2, List.append_assoc], hk2,
            fun q hq => nomatch hq⟩
      · rw [ho] at h; simp [Option.orElse] at h
        subst h
        exact ⟨[], s, rfl, ho, fun q hq => nomatch hq⟩

/-- A successful anchored capture match decomposes the input, and the
captured group contains a required character. -/
theorem matchTripleAt_spec (fuel : Nat) (p : CapPattern) (s g rest : List Char)
    (h : matchTripleAt fuel p s = some (g, rest)) :
    ∃ c1 c3, s = c1 ++ (g ++ (c3 ++ rest)) ∧
      ∀ q, ReqC q p.grp → ∃ ch ∈ g, q ch = true := by
  unfold matchTripleAt at h
  obtain ⟨c1, r1, hs1, hk1, _⟩ := matchRE_split fuel p.pre s _ _ h
  obtain ⟨c2, r2, hs2, hk2, hreq2⟩ := matchRE_split fuel p.grp r1 _ _ hk1
  obtain ⟨c3, r3, hs3, hk3, _⟩ := matchRE_split fuel p.post r2 _ _ hk2
  have hg : g = c2 := by
    have htake : r1.take (r1.length - r2.length) = c2 := by
      rw [hs2]
      simp
    have := hk3
    simp only [Option.some.injEq, Prod.mk.injEq] at this
    rw [htake] at this
    exact this.1.symm
  have hrest : rest = r3 := by
    simp only [Option.some.injEq, Prod.mk.injEq] at hk3
    exact hk3.2.symm
  subst hg hrest
  exact ⟨c1, c3, by rw [hs1, hs2, hs3], hreq2⟩

/-- If `re.search` succeeds, the captured group contains a required
character, and that character occurs in the searched text. -/
theorem reSearch_spec (fuel : Nat) (p : CapPattern) :
    ∀ (s g rest : List Char), reSearch fuel p s = some (g, rest) →
      ∀ q, ReqC q p.grp → ∃ ch ∈ g, q ch = true ∧ ch ∈ s := by
  intro s
  induction s with
  | nil =>
    intro g rest h q hq
    simp only [reSearch] at h
    obtain ⟨c1, c3, hdec, hreq⟩ := matchTripleAt_spec fuel p [] g rest h
    obtain ⟨ch, hm, hqc⟩ := hreq q hq
    exact ⟨ch, hm, hqc, by rw [hdec]; simp [hm]⟩
  | cons x xs ihs =>
    intro g rest h q hq
    simp only [reSearch] at h
    rcases ho : matchTripleAt fuel p (x :: xs) with _ | w
    · rw [ho] at h; simp [Option.orElse] at h
      obtain ⟨ch, hm, hqc, hins⟩ := ihs g rest h q hq
      exact ⟨ch, hm, hqc, List.mem_cons_of_mem _ hins⟩
    · rw [ho] at h; simp [Option.orElse] at h
      obtain rfl : w = (g, rest) := by cases w; simpa using h
      obtain ⟨c1, c3, hdec, hreq⟩ := matchTripleAt_spec fuel p (x :: xs) g rest ho
      obtain ⟨ch, hm, hqc⟩ := hreq q hq
      exact ⟨ch, hm, hqc, by rw [hdec]; simp [hm]⟩

/-- Every group collected by `re.findall` contains a required
character. -/
theorem reFindall_spec (fuel : Nat) (p : CapPattern) :
    ∀ (n : Nat) (s g : List Char), g ∈ reFindall fuel p n s →
      ∀ q, ReqC q p.grp → ∃ ch ∈ g, q ch = true := by
  intro n
  induction n with
  | zero => intro s g hg; simp [reFindall] at hg
  | succ m ihm =>
    intro s g hg q hq
    rw [reFindall] at hg
    rcases ho : reSearch fuel p s with _ | w
    · rw [ho] at hg; simp at hg
    · rw [ho] at hg
      obtain ⟨g0, rest⟩ := w
      simp only [List.mem_cons] at hg
      rcases hg with rfl | hg
      · obtain ⟨ch, hm, hqc, _⟩ := reSearch_spec fuel p s g rest ho q hq
        exact ⟨ch, hm, hqc⟩
      · split at hg
        · exact ihm rest g hg q hq
        · simp at hg

/-- Both number formats require a digit in the captured group. -/
theorem reqC_usNum : ReqC Char.isDigit usNum :=
  .catL (.catL (.chr fun _ h => h))

theorem reqC_euNum : ReqC Char.isDigit euNum :=
  .catL (.catL (.chr fun _ h => h))

/-- Every pattern in the table captures at least one digit. -/
theorem pricePatterns_req :
    ∀ p ∈ pricePatterns, ReqC Char.isDigit p.grp := by
  intro p hp
  simp only [pricePatterns, List.mem_cons, List.mem_singleton] at hp
  rcases hp with rfl | rfl | rfl | rfl | rfl | hp
  · exact reqC_usNum
  · exact reqC_usNum
  · exact reqC_euNum
  · exact reqC_euNum
  · exact reqC_euNum
  · simp at hp; subst hp; exact reqC_euNum

/-- If the pattern loop produces a price, the text contains a digit. -/
theorem tryPricePatterns_digit (eu : Bool) (text : List Char) :
    ∀ (ps : List CapPattern), (∀ p ∈ ps, ReqC Char.isDigit p.grp) →
      ∀ v, tryPricePatterns eu text ps = some v → ∃ ch ∈ text, ch.isDigit = true := by
  intro ps
  induction ps with
  | nil => intro _ v h; simp [tryPricePatterns] at h
  | cons p ps ihp =>
    intro hall v h
    rw [tryPricePatterns] at h
    rcases ho : reSearch (fuelFor text) p text with _ | w
    · rw [ho] at h
      exact ihp (fun p hp => hall p (List.mem_cons_of_mem _ hp)) v h
    · rw [ho] at h
      obtain ⟨g, rest⟩ := w
      rcases hf : pyFloat? (normalizeGroup eu g) with _ | f
      · simp only [hf] at h
        exact ihp (fun p hp => hall p (List.mem_cons_of_mem _ hp)) v h
      · obtain ⟨ch, _, hd, hin⟩ :=
          reSearch_spec (fuelFor text) p text g rest ho Char.isDigit
            (hall p (List.mem_cons_self p ps))
        exact ⟨ch, hin, hd⟩

theorem dedup_offers_foldl (l : List PriceResult) :
    ∀ (acc : List PriceResult) (seen : List (List Char)),
      (l.foldl
        (fun (acc : List PriceResult × List (List Char)) r =>
          let key := dedup_key r
          if key ∈ acc.2 then acc else (acc.1 ++ [r], acc.2 ++ [key]))
        (acc, seen)).1 = acc ++ dedup_aux seen l := by
  induction l with
  | nil => intro acc seen; simp [dedup_aux]
  | cons r rest ih =>
    intro acc seen
    simp only [List.foldl_cons, dedup_aux]
    by_cases hmem : dedup_key r ∈ seen
    · rw [if_pos hmem, if_pos hmem, ih]
    · rw [if_neg hmem, if_neg hmem, ih]
      simp

theorem dedup_offers_eq_aux (l : List PriceResult) :
    dedup_offers l = dedup_aux [] l := by
  unfold dedup_offers
  simpa using dedup_offers_foldl l [] []

theorem dedup_aux_eq_keep_first :
    ∀ (l : List PriceResult) (seen : List (List Char)),
      dedup_aux seen l
        = keep_first_by_key (l.filter (fun y => !(decide (dedup_key y ∈ seen)))) := by
  intro l
  induction l with
  | nil => intro seen; simp [dedup_aux, keep_first_by_key]
  | cons r rest ih =>
    intro seen
    simp only [dedup_aux, List.filter_cons]
    by_cases hmem : dedup_key r ∈ seen
    · rw [if_pos hmem]
      simp only [hmem, decide_True, Bool.not_true, Bool.false_eq_true, if_false]
      exact ih seen
    · rw [if_neg hmem]
      simp only [hmem, decide_False, Bool.not_false, if_true]
      rw [keep_first_by_key.eq_def]
      simp only []
      rw [ih (seen ++ [dedup_key r])]
      congr 1
      rw [List.filter_filter]
      congr 1
      apply List.filter_congr
      intro y _
      by_cases hy : dedup_key y = dedup_key r <;>
        by_cases hs : dedup_key y ∈ seen <;>
        simp [List.mem_append, hy, hs]

/-- The dedup loop of `search_region` keeps exactly the first offer in
merge order for each key. -/
theorem dedup_offers_eq_keep_first (l : List PriceResult) :
    dedup_offers l = keep_first_by_key l := by
  rw [dedup_offers_eq_aux, dedup_aux_eq_keep_first]
  congr 1
  simp

theorem dedup_aux_sublist :
    ∀ (l : List PriceResult) (seen : List (List Char)), List.Sublist (dedup_aux seen l) l := by
  intro l
  induction l with
  | nil => intro seen; simp [dedup_aux]
  | cons r rest ih =>
    intro seen
    rw [dedup_aux]
    by_cases hmem : dedup_key r ∈ seen
    · rw [if_pos hmem]
      exact (ih seen).cons r
    · rw [if_neg hmem]
      exact (ih (seen ++ [dedup_key r])).cons₂ r

/-- Deduplication only drops offers, it never invents them. -/
theorem dedup_offers_sublist (l : List PriceResult) : List.Sublist (dedup_offers l) l := by
  rw [dedup_offers_eq_aux]; exact dedup_aux_sublist l []

/-! ## Character and parsing facts -/

theorem digit_ne_dot {c : Char} (h : c.isDigit = true) : c ≠ '.' := by
  intro hc; subst hc; exact absurd h (by decide)

theorem digit_ne_comma {c : Char} (h : c.isDigit = true) : c ≠ ',' := by
  intro hc; subst hc; exact absurd h (by decide)

theorem digit_not_ws {c : Char} (h : c.isDigit = true) : isPyWs c = false := by
  revert h
  simp only [Char.isDigit, isPyWs]
  intro h
  rcases Bool.and_eq_true_iff.mp h with ⟨h1, h2⟩
  rcases c with ⟨v, _⟩
  simp only [decide_eq_false_iff_not]
  rintro (hc | hc | hc | hc) <;> rw [hc] at h1 h2 <;> revert h1 h2 <;> decide

theorem digit_ne_e {c : Char} (h : c.isDigit = true) : c ≠ 'e' := by
  intro hc; subst hc; exact absurd h (by decide)

theorem digit_ne_E {c : Char} (h : c.isDigit = true) : c ≠ 'E' := by
  intro hc; subst hc; exact absurd h (by decide)

theorem digit_ne_plus {c : Char} (h : c.isDigit = true) : c ≠ '+' := by
  intro hc; subst hc; exact absurd h (by decide)

theorem digit_ne_minus {c : Char} (h : c.isDigit = true) : c ≠ '-' := by
  intro hc; subst hc; exact absurd h (by decide)

theorem dropWhile_of_head_false {p : Char → Bool} :
    ∀ (l : List Char), (∀ c ∈ l, p c = false) → l.dropWhile p = l
  | [], _ => rfl
  | c :: cs, h => by
    simp [List.dropWhile_cons, h c (List.mem_cons_self c cs)]

/-- Trimming is the identity on whitespace-free text. -/
theorem trimWs_of_no_ws (l : List Char) (h : ∀ c ∈ l, isPyWs c = false) :
    trimWs l = l := by
  unfold trimWs
  rw [dropWhile_of_head_false l h]
  rw [dropWhile_of_head_false l.reverse (fun c hc => h c (List.mem_reverse.mp hc))]
  exact List.reverse_reverse l

theorem trimWs_mem {l : List Char} {c : Char} (h : c ∈ trimWs l) : c ∈ l := by
  unfold trimWs at h
  have h1 := List.mem_reverse.mp h
  have h2 := (List.dropWhile_sublist _).mem h1
  have h3 := List.mem_reverse.mp h2
  exact (List.dropWhile_sublist _).mem h3

theorem splitAtChar_eq {c : Char} :
    ∀ {l a b : List Char}, splitAtChar c l = some (a, b) → l = a ++ c :: b := by
  intro l
  induction l with
  | nil => intro a b h; exact Option.noConfusion h
  | cons x xs ih =>
    intro a b h
    rw [splitAtChar] at h
    by_cases hx : x = c
    · rw [if_pos hx] at h
      simp only [Option.some.injEq, Prod.mk.injEq] at h
      rw [← h.1, ← h.2, hx]
      rfl
    · rw [if_neg hx] at h
      rcases ho : splitAtChar c xs with _ | pr
      · rw [ho] at h; exact Option.noConfusion h
      · rw [ho] at h
        obtain ⟨a', b'⟩ := pr
        simp only [Option.map_some', Option.some.injEq, Prod.mk.injEq] at h
        have := ih ho
        rw [← h.1, ← h.2]
        simp [this]

theorem splitAtChar_of_not_mem {c : Char} :
    ∀ {l : List Char}, c ∉ l → splitAtChar c l = none := by
  intro l
  induction l with
  | nil => intro _; rfl
  | cons x xs ih =>
    intro h
    rw [splitAtChar]
    have hx : ¬ (x = c) := fun hx => h (by rw [← hx]; exact List.mem_cons_self x xs)
    rw [if_neg hx]
    rw [ih (fun hm => h (List.mem_cons_of_mem x hm))]
    rfl

theorem splitAtChar_append {c : Char} :
    ∀ (a b : List Char), c ∉ a → splitAtChar c (a ++ c :: b) = some (a, b) := by
  intro a
  induction a with
  | nil => intro b _; rw [List.nil_append, splitAtChar, if_pos rfl]
  | cons x xs ih =>
    intro b h
    rw [List.cons_append, splitAtChar]
    have hx : ¬ (x = c) := fun hx => h (by rw [← hx]; exact List.mem_cons_self x xs)
    rw [if_neg hx]
    rw [ih b (fun hm => h (List.mem_cons_of_mem x hm))]
    rfl

theorem pySign_of_not_sign {l : List Char}
    (h : ∀ c ∈ l.take 1, c ≠ '+' ∧ c ≠ '-') : pySign l = (id, l) := by
  cases l with
  | nil => rfl
  | cons c cs =>
    have hc := h c (by simp)
    rw [pySign, if_neg hc.1, if_neg hc.2]

theorem pyMantissa?_none_eq {s : List Char} (h : splitAtChar '.' s = none) :
    pyMantissa? s
      = if s ≠ [] ∧ allDigits s then some ((digitsVal s : ℚ)) else none := by
  unfold pyMantissa?; rw [h]

theorem pyMantissa?_some_eq {s a b : List Char} (h : splitAtChar '.' s = some (a, b)) :
    pyMantissa? s
      = if (a ≠ [] ∨ b ≠ []) ∧ allDigits a ∧ allDigits b then
          some ((digitsVal a : ℚ) + fracVal b)
        else none := by
  unfold pyMantissa?; rw [h]

/-- A parsed mantissa contains a digit. -/
theorem pyMantissa?_digit {s : List Char} {v : ℚ} (h : pyMantissa? s = some v) :
    ∃ c ∈ s, c.isDigit = true := by
  rcases ho : splitAtChar '.' s with _ | pr
  · rw [pyMantissa?_none_eq ho] at h
    split at h
    · rename_i hcond
      cases s with
      | nil => exact absurd rfl hcond.1
      | cons c cs =>
        refine ⟨c, List.mem_cons_self c cs, ?_⟩
        have := hcond.2
        rw [allDigits, List.all_cons, Bool.and_eq_true_iff] at this
        exact this.1
    · exact Option.noConfusion h
  · obtain ⟨a, b⟩ := pr
    have hs := splitAtChar_eq ho
    rw [pyMantissa?_some_eq ho] at h
    split at h
    · rename_i hcond
      obtain ⟨hne, ha, hb⟩ := hcond
      rcases hne with hne | hne
      · cases a with
        | nil => exact absurd rfl hne
        | cons c cs =>
          refine ⟨c, ?_, ?_⟩
          · rw [hs]; exact List.mem_append_left _ (List.mem_cons_self c cs)
          · rw [allDigits, List.all_cons, Bool.and_eq_true_iff] at ha
            exact ha.1
      · cases b with
        | nil => exact absurd rfl hne
        | cons c cs =>
          refine ⟨c, ?_, ?_⟩
          · rw [hs]
            exact List.mem_append_right _ (List.mem_cons_of_mem _ (List.mem_cons_self c cs))
          · rw [allDigits, List.all_cons, Bool.and_eq_true_iff] at hb
            exact hb.1
    · exact Option.noConfusion h

theorem pySign_snd_sub {l : List Char} : ∀ c ∈ (pySign l).2, c ∈ l := by
  cases l with
  | nil => intro c hc; simp [pySign] at hc
  | cons x xs =>
    intro c hc
    rw [pySign] at hc
    split at hc
    · exact List.mem_cons_of_mem x hc
    · split at hc
      · exact List.mem_cons_of_mem x hc
      · exact hc

/-- A successfully parsed float literal contains a digit. -/
theorem pyFloat?_digit {s : List Char} {v : ℚ} (h : pyFloat? s = some v) :
    ∃ c ∈ s, c.isDigit = true := by
  unfold pyFloat? at h
  rcases ho : splitAtChar 'e' (pySign (trimWs s)).2 with _ | pr
  · simp only [ho] at h
    rcases ho2 : splitAtChar 'E' (pySign (trimWs s)).2 with _ | pr2
    · simp only [ho2] at h
      rcases hm : pyMantissa? (pySign (trimWs s)).2 with _ | mv
      · simp only [hm, Option.map_none] at h; exact Option.noConfusion h
      · obtain ⟨c, hc, hd⟩ := pyMantissa?_digit hm
        exact ⟨c, trimWs_mem (pySign_snd_sub c hc), hd⟩
    · simp only [ho2] at h
      obtain ⟨m, e⟩ := pr2
      rcases hmv : pyMantissa? m with _ | mv
      · simp only [hmv] at h; exact Option.noConfusion h
      · obtain ⟨c, hc, hd⟩ := pyMantissa?_digit hmv
        have hc2 : c ∈ (pySign (trimWs s)).2 := by
          rw [splitAtChar_eq ho2]
          exact List.mem_append_left _ hc
        exact ⟨c, trimWs_mem (pySign_snd_sub c hc2), hd⟩
  · simp only [ho] at h
    obtain ⟨m, e⟩ := pr
    rcases hmv : pyMantissa? m with _ | mv
    · simp only [hmv] at h; exact Option.noConfusion h
    · obtain ⟨c, hc, hd⟩ := pyMantissa?_digit hmv
      have hc2 : c ∈ (pySign (trimWs s)).2 := by
        rw [splitAtChar_eq ho]
        exact List.mem_append_left _ hc
      exact ⟨c, trimWs_mem (pySign_snd_sub c hc2), hd⟩

/-- `find?` returns the first element satisfying the test. -/
theorem find?_first {α : Type} (p : α → Bool) :
    ∀ (l₁ : List α) (e : α) (l₂ : List α), (∀ x ∈ l₁, p x = false) → p e = true →
      (l₁ ++ e :: l₂).find? p = some e := by
  intro l₁
  induction l₁ with
  | nil =>
    intro e l₂ _ he
    rw [List.nil_append, List.find?_cons_of_pos _ he]
  | cons x xs ih =>
    intro e l₂ hall he
    rw [List.cons_append,
      List.find?_cons_of_neg _ (by simp [hall x (List.mem_cons_self x xs)]),
      ih e l₂ (fun y hy => hall y (List.mem_cons_of_mem x hy)) he]

theorem map_id_of_no_comma {l : List Char} (h : ∀ c ∈ l, c ≠ ',') :
    l.map (fun c => if c = ',' then '.' else c) = l := by
  induction l with
  | nil => rfl
  | cons x xs ih =>
    rw [List.map_cons, if_neg (h x (List.mem_cons_self x xs)),
      ih (fun c hc => h c (List.mem_cons_of_mem x hc))]

/-- Shared skeleton: on separator-free digit text around one separator
character, `_parse_turkish_price` reaches `pyFloat?` with a cleaned-up
body. -/
theorem parse_turkish_on_digits_sep (a b : List Char) (sep : Char)
    (ha : a ≠ []) (hsep1 : isPyWs sep = false)
    (hsep2 : (sep.isDigit || sep = '.' || sep = ',') = true)
    (hda : ∀ c ∈ a, c.isDigit = true) (hdb : ∀ c ∈ b, c.isDigit = true) :
    parse_turkish_price (String.mk (a ++ sep :: b))
      = pyFloat? (((a ++ sep :: b).filter (fun c => c ≠ '.')).map
          (fun c => if c = ',' then '.' else c)) := by
  have hmem : ∀ c ∈ a ++ sep :: b, isPyWs c = false := by
    intro c hc
    rcases List.mem_append.mp hc with hc | hc
    · exact digit_not_ws (hda c hc)
    · rcases List.mem_cons.mp hc with rfl | hc
      · exact hsep1
      · exact digit_not_ws (hdb c hc)
  have hne : a ++ sep :: b ≠ [] := by
    cases a with
    | nil => exact absurd rfl ha
    | cons x xs => simp
  unfold parse_turkish_price
  rw [if_neg (by simpa using hne)]
  rw [show (String.mk (a ++ sep :: b)).data = a ++ sep :: b from rfl]
  rw [trimWs_of_no_ws _ hmem]
  have hfilter : (a ++ sep :: b).filter (fun c => c.isDigit || c = '.' || c = ',') = a ++ sep :: b := by
    rw [List.filter_eq_self]
    intro c hc
    rcases List.mem_append.mp hc with hc | hc
    · simp [hda c hc]
    · rcases List.mem_cons.mp hc with rfl | hc
      · exact hsep2
      · simp [hdb c hc]
  rw [hfilter]
  rw [if_neg (by simpa using hne)]

/-- On digit text with a single comma, `_parse_turkish_price` always
reads the comma as the decimal separator, whatever the number of
digits that follow. -/
theorem parse_turkish_comma (a b : List Char) (ha : a ≠ []) (hb : b ≠ [])
    (hda : ∀ c ∈ a, c.isDigit = true) (hdb : ∀ c ∈ b, c.isDigit = true) :
    parse_turkish_price (String.mk (a ++ ',' :: b))
      = some ((digitsVal a : ℚ) + fracVal b) := by
  rw [parse_turkish_on_digits_sep a b ',' ha (by decide) (by decide) hda hdb]
  have hfilter : (a ++ ',' :: b).filter (fun c => c ≠ '.') = a ++ ',' :: b := by
    rw [List.filter_eq_self]
    intro c hc
    rcases List.mem_append.mp hc with hc | hc
    · simp [digit_ne_dot (hda c hc)]
    · rcases List.mem_cons.mp hc with rfl | hc
      · decide
      · simp [digit_ne_dot (hdb c hc)]
  rw [hfilter]
  have hmap : (a ++ ',' :: b).map (fun c => if c = ',' then '.' else c) = a ++ '.' :: b := by
    rw [List.map_append, List.map_cons, if_pos rfl]
    rw [map_id_of_no_comma (fun c hc => digit_ne_comma (hda c hc))]
    rw [map_id_of_no_comma (fun c hc => digit_ne_comma (hdb c hc))]
  rw [hmap]
  have hnows : ∀ c ∈ a ++ '.' :: b, isPyWs c = false := by
    intro c hc
    rcases List.mem_append.mp hc with hc | hc
    · exact digit_not_ws (hda c hc)
    · rcases List.mem_cons.mp hc with rfl | hc
      · decide
      · exact digit_not_ws (hdb c hc)
  have hsign : pySign (a ++ '.' :: b) = (id, a ++ '.' :: b) := by
    apply pySign_of_not_sign
    intro c hc
    have hc' : c ∈ a ++ '.' :: b := (List.take_sublist 1 _).mem hc
    rcases List.mem_append.mp hc' with hcm | hcm
    · exact ⟨digit_ne_plus (hda c hcm), digit_ne_minus (hda c hcm)⟩
    · rcases List.mem_cons.mp hcm with rfl | hcm
      · exact ⟨by decide, by decide⟩
      · exact ⟨digit_ne_plus (hdb c hcm), digit_ne_minus (hdb c hcm)⟩
  have hnoe : ∀ (ch : Char), ch = 'e' ∨ ch = 'E' → ch ∉ a ++ '.' :: b := by
    rintro ch hch hmem
    rcases List.mem_append.mp hmem with hm | hm
    · rcases hch with rfl | rfl
      · exact digit_ne_e (hda _ hm) rfl
      · exact digit_ne_E (hda _ hm) rfl
    · rcases List.mem_cons.mp hm with rfl | hm
      · rcases hch with h | h <;> exact absurd h (by decide)
      · rcases hch with rfl | rfl
        · exact digit_ne_e (hdb _ hm) rfl
        · exact digit_ne_E (hdb _ hm) rfl
  unfold pyFloat?
  rw [trimWs_of_no_ws _ hnows, hsign]
  rw [splitAtChar_of_not_mem (hnoe 'e' (Or.inl rfl))]
  rw [splitAtChar_of_not_mem (hnoe 'E' (Or.inr rfl))]
  rw [pyMantissa?_some_eq
    (splitAtChar_append a b (fun hm => digit_ne_dot (hda '.' hm) rfl))]
  rw [if_pos ⟨Or.inl ha, by
      rw [allDigits, List.all_eq_true]; exact hda, by
      rw [allDigits, List.all_eq_true]; exact hdb⟩]
  rfl

/-- On digit text with a single dot, `_parse_turkish_price` always
strips the dot as a thousands separator, whatever its position. -/
theorem parse_turkish_dot (a b : List Char) (ha : a ≠ []) (hb : b ≠ [])
    (hda : ∀ c ∈ a, c.isDigit = true) (hdb : ∀ c ∈ b, c.isDigit = true) :
    parse_turkish_price (String.mk (a ++ '.' :: b))
      = some ((digitsVal (a ++ b) : ℚ)) := by
  rw [parse_turkish_on_digits_sep a b '.' ha (by decide) (by decide) hda hdb]
  have hab : ∀ c ∈ a ++ b, c.isDigit = true := by
    intro c hc
    rcases List.mem_append.mp hc with hc | hc
    · exact hda c hc
    · exact hdb c hc
  have hfilter : (a ++ '.' :: b).filter (fun c => c ≠ '.') = a ++ b := by
    rw [List.filter_append, List.filter_cons]
    simp only [ne_eq, not_true_eq_false, decide_False, Bool.false_eq_true, if_false]
    rw [List.filter_eq_self.mpr (fun c hc => by simp [digit_ne_dot (hda c hc)]),
      List.filter_eq_self.mpr (fun c hc => by simp [digit_ne_dot (hdb c hc)])]
  rw [hfilter]
  rw [map_id_of_no_comma (fun c hc => digit_ne_comma (hab c hc))]
  have hnows : ∀ c ∈ a ++ b, isPyWs c = false := fun c hc => digit_not_ws (hab c hc)
  have hsign : pySign (a ++ b) = (id, a ++ b) := by
    apply pySign_of_not_sign
    intro c hc
    have hc' : c ∈ a ++ b := (List.take_sublist 1 _).mem hc
    exact ⟨digit_ne_plus (hab c hc'), digit_ne_minus (hab c hc')⟩
  unfold pyFloat?
  rw [trimWs_of_no_ws _ hnows, hsign]
  rw [splitAtChar_of_not_mem (fun hm => digit_ne_e (hab 'e' hm) rfl)]
  rw [splitAtChar_of_not_mem (fun hm => digit_ne_E (hab 'E' hm) rfl)]
  rw [pyMantissa?_none_eq (splitAtChar_of_not_mem (fun hm => digit_ne_dot (hab '.' hm) rfl))]
  rw [if_pos ⟨by
      cases a with
      | nil => exact absurd rfl ha
      | cons x xs => simp, by
      rw [allDigits, List.all_eq_true]; exact hab⟩]
  rfl

/-! ## Claim theorems -/

/-- C7: an empty or missing seller label maps to
`("unknown", "Unknown")`; a label whose lowercased text contains a
keyword of the static table maps to that keyword's canonical pair,
first matching table entry winning; every other non-empty label maps
to `("other", label)`.  Concrete cases:
`identify("Sold by Best Buy") = ("bestbuy", "Best Buy")`,
`identify("") = ("unknown", "Unknown")`, and
`identify("Joe's Hardware") = ("other", "Joe's Hardware")`. -/
theorem identify_platform_spec :
    (identify_platform (some ("Sold by Best Buy")) ("us") = ("bestbuy", "Best Buy")
      ∧ identify_platform (some "") ("us") = ("unknown", "Unknown")
      ∧ identify_platform none ("us") = ("unknown", "Unknown")
      ∧ identify_platform (some ("Joe\x27s Hardware")) ("us")
          = ("other", "Joe\x27s Hardware"))
    ∧ (∀ (s region : String), s ≠ "" →
        (∀ m ∈ platform_mappings, hasSub m.1.data (pyLower s).data = false) →
        identify_platform (some s) region = ("other", s))
    ∧ (∀ (s region : String) (l₁ : List (String × String × String)) (m : String × String × String)
        (l₂ : List (String × String × String)),
        s ≠ "" → platform_mappings = l₁ ++ m :: l₂ →
        (∀ m' ∈ l₁, hasSub m'.1.data (pyLower s).data = false) →
        hasSub m.1.data (pyLower s).data = true →
        identify_platform (some s) region = (m.2.1, m.2.2)) := by
  refine ⟨⟨by decide, by decide, by decide, by decide⟩, ?_, ?_⟩
  · intro s region hs hall
    simp only [identify_platform]
    rw [if_neg hs]
    rw [List.find?_eq_none.mpr (by intro m hm; simp [hall m hm])]
  · intro s region l₁ m l₂ hs hsplit hall hm
    simp only [identify_platform]
    rw [if_neg hs, hsplit, find?_first _ l₁ m l₂ hall hm]

theorem priceLe_trans : ∀ (a b c : PriceResult),
    priceLe a b → priceLe b c → priceLe a c := by
  intro a b c hab hbc
  exact decide_eq_true
    (le_trans (of_decide_eq_true hab) (of_decide_eq_true hbc))

theorem priceLe_total : ∀ (a b : PriceResult), priceLe a b || priceLe b a := by
  intro a b
  rcases le_total a.price b.price with h | h
  · simp [priceLe, h]
  · simp [priceLe, h]

/-- Stability of the model sort: filtering by an exact price commutes
with sorting, i.e. equal-price offers keep their input order. -/
theorem mergeSort_stable_filter (l : List PriceResult) (p : ℚ) :
    (l.mergeSort priceLe).filter (fun o => o.price == p)
      = l.filter (fun o => o.price == p) := by
  have hmemp : ∀ a ∈ l.filter (fun o => o.price == p), a.price = p := by
    intro a ha
    exact eq_of_beq (List.mem_filter.mp ha).2
  have hpw : (l.filter (fun o => o.price == p)).Pairwise (fun a b => priceLe a b) := by
    apply List.pairwise_of_forall_mem_list
    intro a ha b hb
    unfold priceLe
    rw [hmemp a ha, hmemp b hb]
    simp
  have hsub : List.Sublist (l.filter (fun o => o.price == p)) (l.mergeSort priceLe) :=
    List.sublist_mergeSort priceLe_trans priceLe_total hpw (List.filter_sublist l)
  have hsub2 : List.Sublist (l.filter (fun o => o.price == p))
      ((l.mergeSort priceLe).filter (fun o => o.price == p)) := by
    have := hsub.filter (fun o => o.price == p)
    rwa [List.filter_eq_self.mpr (fun a ha => (List.mem_filter.mp ha).2)] at this
  have hperm : ((l.mergeSort priceLe).filter (fun o => o.price == p)).length
      = (l.filter (fun o => o.price == p)).length :=
    ((List.mergeSort_perm l priceLe).filter _).length_eq
  exact (hsub2.eq_of_length hperm.symm).symm

theorem foldl_append_eq {α β : Type} (f : β → List α) :
    ∀ (l : List β) (init : List α),
      l.foldl (fun acc b => acc ++ f b) init = init ++ (l.map f).flatten := by
  intro l
  induction l with
  | nil => intro init; simp
  | cons b bs ih =>
    intro init
    rw [List.foldl_cons, ih, List.map_cons]
    simp [List.append_assoc]

/-- C3: deduplication keys an offer by its lowercased product name
with all non-alphanumeric (ASCII `[a-z0-9]` after lowering) characters
removed, truncated to a 50-character prefix, and keeps exactly the
first offer in merge order for each key; the two example names map to
the same key and only the first-seen offer is retained. -/
theorem dedup_first_occurrence :
    (∀ (l : List PriceResult), dedup_offers l = keep_first_by_key l)
    ∧ dedup_key appleOffer1 = dedup_key appleOffer2
    ∧ dedup_offers [appleOffer1, appleOffer2] = [appleOffer1] := by
  refine ⟨dedup_offers_eq_keep_first, by decide, by with_unfolding_all rfl⟩

/-- C4: the offer list returned by `search_region` has length at most
`max_results`, is sorted ascending by price, and the sort is stable —
for every price, the equal-price offers of the output are the initial
run of the deduplicated list's offers at that price, in merge order.
On the worked example, offers priced `[999, 899, 1099]` come back as
`[899, 999, 1099]`, and truncation to `max_results = 2` yields
`[899, 999]`. -/
theorem ranking_sorted_truncated :
    (∀ (region : String) (outcomes : List TaskOutcome) (max_results : Nat),
      ((search_region region outcomes max_results).1.length ≤ max_results)
      ∧ ((search_region region outcomes max_results).1.Pairwise
          (fun a b => a.price ≤ b.price))
      ∧ (∀ p : ℚ,
          ((search_region region outcomes max_results).1.filter
              (fun o => o.price == p))
            ++ ((((dedup_offers (merge_ok outcomes)).mergeSort priceLe).drop
                  max_results).filter (fun o => o.price == p))
          = (dedup_offers (merge_ok outcomes)).filter (fun o => o.price == p)))
    ∧ ((search_region ("us") [TaskOutcome.ok [offer999, offer899, offer1099],
          TaskOutcome.ok []] 10).1 = [offer899, offer999, offer1099])
    ∧ ((search_region ("us") [TaskOutcome.ok [offer999, offer899, offer1099],
          TaskOutcome.ok []] 2).1 = [offer899, offer999]) := by
  refine ⟨?_, by with_unfolding_all rfl, by with_unfolding_all rfl⟩
  intro region outcomes max_results
  refine ⟨?_, ?_, ?_⟩
  · simpa [search_region] using
      min_le_left max_results
        ((dedup_offers (merge_ok outcomes)).mergeSort priceLe).length
  · have hs : ((dedup_offers (merge_ok outcomes)).mergeSort priceLe).Pairwise
        (fun a b => priceLe a b) :=
      List.sorted_mergeSort priceLe_trans priceLe_total _
    have ht : (search_region region outcomes max_results).1.Pairwise
        (fun a b => priceLe a b) :=
      hs.sublist (List.take_sublist _ _)
    exact ht.imp (fun h => of_decide_eq_true h)
  · intro p
    have hsplit :
        ((dedup_offers (merge_ok outcomes)).mergeSort priceLe).filter
            (fun o => o.price == p)
          = ((search_region region outcomes max_results).1.filter
              (fun o => o.price == p))
            ++ ((((dedup_offers (merge_ok outcomes)).mergeSort priceLe).drop
                  max_results).filter (fun o => o.price == p)) := by
      show (_ : List PriceResult).filter _ = _
      rw [show (search_region region outcomes max_results).1
          = ((dedup_offers (merge_ok outcomes)).mergeSort priceLe).take max_results
          from rfl]
      rw [← List.filter_append, List.take_append_drop]
    rw [← hsplit, mergeSort_stable_filter]

theorem merge_ok_eq_flatten :
    ∀ (outcomes : List TaskOutcome),
      merge_ok outcomes = (outcomes.map outcomeOffers).flatten := by
  have hgen : ∀ (outcomes : List TaskOutcome) (init : List PriceResult),
      outcomes.foldl (fun acc o => match o with | .ok l => acc ++ l | .exn => acc) init
        = init ++ (outcomes.map outcomeOffers).flatten := by
    intro outcomes
    induction outcomes with
    | nil => intro init; simp
    | cons o os ih =>
      intro init
      cases o with
      | ok l =>
        rw [List.foldl_cons]
        show os.foldl _ (init ++ l) = _
        rw [ih]
        simp [outcomeOffers, List.append_assoc]
      | exn =>
        rw [List.foldl_cons]
        show os.foldl _ init = _
        rw [ih]
        simp [outcomeOffers]
  intro outcomes
  rw [show merge_ok outcomes
      = outcomes.foldl (fun acc o => match o with | .ok l => acc ++ l | .exn => acc) []
      from rfl]
  rw [hgen]
  simp

/-- C1 counterexample: with the first of the two configured US sources
failing and the second supplying one offer, `search_region` still
reports both static sources as used — the failed source is not
excluded from the sources list, contradicting the claim. -/
theorem sources_used_counterexample :
    (search_region ("us") [TaskOutcome.exn, TaskOutcome.ok [offerA]] 10).1 = [offerA]
    ∧ (search_region ("us") [TaskOutcome.exn, TaskOutcome.ok [offerA]] 10).2
        = ["google_shopping", "amazon_us"]
    ∧ (["google_shopping", "amazon_us"] : List String) ≠ ["amazon_us"] := by
  refine ⟨by with_unfolding_all rfl, by with_unfolding_all rfl, by decide⟩

/-- C1 amended: a source task that raises (or times out) contributes
nothing and cannot abort the search — it behaves exactly like a source
returning the empty list; every returned offer comes from some
successful source's list; but the "sources used" component is the
static configured source list of the region, regardless of which
sources contributed. -/
theorem search_region_error_isolation :
    (∀ (region : String) (pre post : List TaskOutcome) (max_results : Nat),
      search_region region (pre ++ TaskOutcome.exn :: post) max_results
        = search_region region (pre ++ TaskOutcome.ok [] :: post) max_results)
    ∧ (∀ (region : String) (outcomes : List TaskOutcome) (max_results : Nat)
        (r : PriceResult), r ∈ (search_region region outcomes max_results).1 →
        ∃ l, TaskOutcome.ok l ∈ outcomes ∧ r ∈ l)
    ∧ (∀ (region : String) (outcomes : List TaskOutcome) (max_results : Nat),
        (search_region region outcomes max_results).2 = region_sources region) := by
  refine ⟨?_, ?_, fun region outcomes max_results => rfl⟩
  · intro region pre post max_results
    unfold search_region
    have hm : merge_ok (pre ++ TaskOutcome.exn :: post)
        = merge_ok (pre ++ TaskOutcome.ok [] :: post) := by
      rw [merge_ok_eq_flatten, merge_ok_eq_flatten]
      simp [outcomeOffers]
    rw [hm]
  · intro region outcomes max_results r hr
    have hr2 : r ∈ (dedup_offers (merge_ok outcomes)).mergeSort priceLe :=
      (List.take_sublist _ _).mem hr
    have hr3 : r ∈ dedup_offers (merge_ok outcomes) := List.mem_mergeSort.mp hr2
    have hr4 : r ∈ merge_ok outcomes := (dedup_offers_sublist _).mem hr3
    rw [merge_ok_eq_flatten] at hr4
    obtain ⟨l, hl, hrl⟩ := List.mem_flatten.mp hr4
    obtain ⟨o, ho, rfl⟩ := List.mem_map.mp hl
    cases o with
    | ok l' => exact ⟨l', ho, hrl⟩
    | exn => exact absurd hrl (List.not_mem_nil r)

/-- C1 witness: the membership clause applied at a concrete outcome
list. -/
theorem search_region_error_isolation_witness :
    ∃ l, TaskOutcome.ok l ∈ [TaskOutcome.exn, TaskOutcome.ok [offerA]] ∧ offerA ∈ l :=
  search_region_error_isolation.2.1 ("us")
    [TaskOutcome.exn, TaskOutcome.ok [offerA]] 10 offerA
    (by with_unfolding_all decide)

/-- Required-character fact for the title pattern's group
(`[^"]+`). -/
theorem titlePat_req : ReqC (fun _ => true) titlePat.grp :=
  .catL (.chr fun _ _ => rfl)

/-- Every offer a script block contributes has a positive price within
the cap and a nonempty product name. -/
theorem scriptBlockOffers_mem {currency : String} {max_results : Nat}
    {block : List Char} {r : PriceResult}
    (h : r ∈ scriptBlockOffers currency max_results block) :
    0 < r.price ∧ r.price ≤ 100000 ∧ r.product_name ≠ "" := by
  unfold scriptBlockOffers at h
  split at h
  · exact absurd h (List.not_mem_nil r)
  · obtain ⟨i, _, hg⟩ := List.mem_filterMap.mp h
    rcases ht : (findallIn titlePat block).get? i with _ | t
    · simp only [ht] at hg; exact Option.noConfusion hg
    · rcases hp : (findallIn priceScriptPat block).get? i with _ | pstr
      · simp only [ht, hp] at hg; exact Option.noConfusion hg
      · simp only [ht, hp] at hg
        rcases hf : pyFloat? pstr with _ | price
        · simp only [hf] at hg; exact Option.noConfusion hg
        · simp only [hf] at hg
          split at hg
          · exact Option.noConfusion hg
          · rename_i hcond
            push_neg at hcond
            obtain ⟨rfl⟩ : _ = r := Option.some.inj hg
            refine ⟨hcond.1, hcond.2, ?_⟩
            have htm : t ∈ findallIn titlePat block := List.get?_mem ht
            obtain ⟨ch, hch, _⟩ :=
              reFindall_spec _ titlePat _ block t htm (fun _ => true) titlePat_req
            intro hemp
            have ht0 : t = [] := by
              have := congrArg String.data hemp
              simpa using this
            rw [ht0] at hch
            exact List.not_mem_nil ch hch

/-- Membership in the script strategy output reduces to membership in
some block's contribution. -/
theorem scripts_mem {html currency : String} {max_results : Nat} {r : PriceResult}
    (h : r ∈ parse_google_shopping_scripts html currency max_results) :
    ∃ block, r ∈ scriptBlockOffers currency max_results block := by
  unfold parse_google_shopping_scripts at h
  rw [foldl_append_eq] at h
  rw [List.nil_append] at h
  obtain ⟨l, hl, hr⟩ := List.mem_flatten.mp h
  obtain ⟨block, _, rfl⟩ := List.mem_map.mp hl
  exact ⟨block, hr⟩

/-- C10: the embedded-script strategy only emits offers with
`0 < price ≤ 100000`; every candidate pair whose parsed price falls
outside that range is discarded, so this strategy can never produce an
offer priced above `100000`. -/
theorem scripts_price_bounded :
    ∀ (html currency : String) (max_results : Nat),
      ∀ r ∈ parse_google_shopping_scripts html currency max_results,
        0 < r.price ∧ r.price ≤ 100000 := by
  intro html currency max_results r hr
  obtain ⟨block, hb⟩ := scripts_mem hr
  exact ⟨(scriptBlockOffers_mem hb).1, (scriptBlockOffers_mem hb).2.1⟩

/-- C10 witness: the bound applied to a concrete emitted offer. -/
theorem scripts_price_bounded_witness :
    0 < ({ platform := "google_shopping", platform_name := "Google Shopping",
           product_name := "ab", price := 5, currency := "$", url := "",
           source := "google_shopping" } : PriceResult).price
    ∧ ({ platform := "google_shopping", platform_name := "Google Shopping",
         product_name := "ab", price := 5, currency := "$", url := "",
         source := "google_shopping" } : PriceResult).price ≤ 100000 :=
  scripts_price_bounded
    ("<script>\"title\": \"ab\", \"price\": \"5\"</script>") ("$") 10
    { platform := "google_shopping", platform_name := "Google Shopping",
      product_name := "ab", price := 5, currency := "$", url := "",
      source := "google_shopping" }
    (by with_unfolding_all decide)

/-- C5 counterexample: the embedded-script strategy constructs a
`PriceResult` whose product name has fewer than 3 characters after
trimming (it only requires nonemptiness), contradicting the claimed
invariant for every extraction strategy. -/
theorem offer_invariants_counterexample :
    (parse_google_shopping_scripts
        ("<script>\"title\": \"ab\", \"price\": \"5\"</script>") ("$") 10).map
      (fun r => r.product_name.trim.length) = [2]
    ∧ (2 : Nat) < 3 := by
  refine ⟨by with_unfolding_all rfl, by decide⟩

/-- C5 amended: every `PriceResult` built by `_parse_jsonld_product`
has a strictly positive price and a product name of raw length at
least 3 (the source checks `len(name) < 3` without trimming); every
`PriceResult` built by the embedded-script strategy has a strictly
positive price and a nonempty product name (no 3-character check
exists there). -/
theorem offer_invariants_amended :
    (∀ (product : JValue) (platform platform_name currency source : String)
        (r : PriceResult),
        parse_jsonld_product product platform platform_name currency source = some r →
        0 < r.price ∧ 3 ≤ r.product_name.length)
    ∧ (∀ (html currency : String) (max_results : Nat),
        ∀ r ∈ parse_google_shopping_scripts html currency max_results,
          0 < r.price ∧ r.product_name ≠ "") := by
  constructor
  · intro product platform platform_name currency source r h
    cases product with
    | null => exact Option.noConfusion h
    | bool b => exact Option.noConfusion h
    | num q => exact Option.noConfusion h
    | str s => exact Option.noConfusion h
    | arr l => exact Option.noConfusion h
    | obj fields =>
      simp only [parse_jsonld_product] at h
      split at h
      · exact Option.noConfusion h
      · rcases hn : jget (JValue.obj fields) ("name") (.str "") with _ | b | q | name | l | fs
        all_goals simp only [hn] at h
        all_goals try exact Option.noConfusion h
        split at h
        · exact Option.noConfusion h
        · rename_i hname
          push_neg at hname
          rcases hb : (resolveOffers (jget (JValue.obj fields) ("offers") (.obj []))
              (jstrD (jget (JValue.obj fields) ("url") (.str "")))).best with _ | price
          · simp only [hb] at h; exact Option.noConfusion h
          · simp only [hb] at h
            split at h
            · exact Option.noConfusion h
            · rename_i hpos
              rw [not_le] at hpos
              obtain ⟨rfl⟩ : _ = r := Option.some.inj h
              exact ⟨hpos, hname.2⟩
  · intro html currency max_results r hr
    obtain ⟨block, hb⟩ := scripts_mem hr
    exact ⟨(scriptBlockOffers_mem hb).1, (scriptBlockOffers_mem hb).2.2⟩

/-- C5 witness: the two invariant clauses applied at concrete
inputs. -/
theorem offer_invariants_witness :
    (0 < ({ platform := "p", platform_name := "P", product_name := "Widget",
            price := 7, currency := "$", url := "u",
            source := "direct" } : PriceResult).price
      ∧ 3 ≤ ({ platform := "p", platform_name := "P", product_name := "Widget",
               price := 7, currency := "$", url := "u",
               source := "direct" } : PriceResult).product_name.length)
    ∧ (0 < ({ platform := "google_shopping", platform_name := "Google Shopping",
              product_name := "ab", price := 5, currency := "$", url := "",
              source := "google_shopping" } : PriceResult).price
      ∧ ({ platform := "google_shopping", platform_name := "Google Shopping",
           product_name := "ab", price := 5, currency := "$", url := "",
           source := "google_shopping" } : PriceResult).product_name ≠ "") :=
  ⟨offer_invariants_amended.1
      (.obj [("name", .str "Widget"), ("offers", .obj [("price", .num 7)]),
             ("url", .str "u")])
      ("p") ("P") ("$") ("direct")
      { platform := "p", platform_name := "P", product_name := "Widget",
        price := 7, currency := "$", url := "u", source := "direct" }
      (by with_unfolding_all rfl),
   offer_invariants_amended.2
      ("<script>\"title\": \"ab\", \"price\": \"5\"</script>") ("$") 10
      { platform := "google_shopping", platform_name := "Google Shopping",
        product_name := "ab", price := 5, currency := "$", url := "",
        source := "google_shopping" }
      (by with_unfolding_all decide)⟩

/-- C2 counterexample: the claimed separator heuristics fail on
`_parse_turkish_price`.  For `"1,049"` the claim demands `1049.0`
(comma with three trailing digits as thousands separator) but the code
returns `1.049`; for `"1,049.99"` the claim demands `1049.99` (the
last separator `.` as decimal) but the code returns `1.04999`. -/
theorem price_separator_counterexample :
    parse_turkish_price ("1,049") = some ((1049 : ℚ)/1000)
    ∧ ¬ ((1049 : ℚ)/1000 = (1049 : ℚ))
    ∧ parse_turkish_price ("1,049.99") = some ((104999 : ℚ)/100000)
    ∧ ¬ ((104999 : ℚ)/100000 = (104999 : ℚ)/100) := by
  refine ⟨by with_unfolding_all rfl, by norm_num,
    by with_unfolding_all rfl, by norm_num⟩

/-- C2 amended: the parsers pick a separator convention from the
currency hint or unconditionally, not from separator positions.
`_extract_price_from_text` keys on the currency: a US hint strips
commas (`"$1,049.99"` parses to `1049.99`), an EU/TR hint strips dots
and reads the comma as decimal (`"1.049,99 €"` parses to `1049.99`).
`_parse_turkish_price` always strips every dot and reads the comma as
the decimal separator, regardless of how many digits follow: on digit
text `a,b` it returns `a.b` (so `"49,99"` parses to `49.99` but
`"1,049"` parses to `1.049`), and on digit text `a.b` it returns the
concatenated integer (so `"1,049.99"` parses to `1.04999`, not
`1049.99`). -/
theorem price_separator_amended :
    (extract_price_from_text ("$1,049.99") ("$") = some ((104999 : ℚ)/100))
    ∧ (extract_price_from_text ("1.049,99 €") ("€") = some ((104999 : ℚ)/100))
    ∧ (∀ a b : List Char, a ≠ [] → b ≠ [] →
        (∀ c ∈ a, c.isDigit = true) → (∀ c ∈ b, c.isDigit = true) →
        parse_turkish_price (String.mk (a ++ ',' :: b))
          = some ((digitsVal a : ℚ) + fracVal b))
    ∧ (∀ a b : List Char, a ≠ [] → b ≠ [] →
        (∀ c ∈ a, c.isDigit = true) → (∀ c ∈ b, c.isDigit = true) →
        parse_turkish_price (String.mk (a ++ '.' :: b))
          = some ((digitsVal (a ++ b) : ℚ)))
    ∧ (parse_turkish_price ("49,99") = some ((4999 : ℚ)/100))
    ∧ (parse_turkish_price ("1,049") = some ((1049 : ℚ)/1000)) := by
  refine ⟨by with_unfolding_all rfl, by with_unfolding_all rfl,
    parse_turkish_comma, parse_turkish_dot,
    by with_unfolding_all rfl, by with_unfolding_all rfl⟩

/-- C2 witness: the general clauses of the amended claim applied at
`"49,99"` and `"1.049"`. -/
theorem price_separator_amended_witness :
    parse_turkish_price (String.mk (['4', '9'] ++ ',' :: ['9', '9']))
      = some ((digitsVal ['4', '9'] : ℚ) + fracVal ['9', '9'])
    ∧ parse_turkish_price (String.mk (['1'] ++ '.' :: ['0', '4', '9']))
      = some ((digitsVal (['1'] ++ ['0', '4', '9']) : ℚ)) :=
  ⟨price_separator_amended.2.2.1 ['4', '9'] ['9', '9']
      (by decide) (by decide) (by decide) (by decide),
   price_separator_amended.2.2.2.1 ['1'] ['0', '4', '9']
      (by decide) (by decide) (by decide) (by decide)⟩

/-- C8 counterexample: a zero-priced candidate is returned as a price,
not mapped to `none` — `_extract_price_from_text("$0")` returns `0.0`,
which is not positive.  (Call sites recover because `0.0` is falsy in
Python, but the parsing function itself violates the claim.) -/
theorem price_parsing_zero_counterexample :
    extract_price_from_text ("$0") ("$") = some 0 ∧ ¬ ((0 : ℚ) > 0) := by
  refine ⟨by with_unfolding_all rfl, by decide⟩

/-- C8 amended: the parsers are total Lean functions (the models never
raise, mirroring the source's catch-all handlers), and text without a
digit always yields `none`; however an unparseable-to-positive
candidate is not always `none`: a parsed `0` is returned as `some 0`. -/
theorem price_parsing_safety_amended :
    (∀ (text currency : String), (∀ c ∈ text.data, c.isDigit = false) →
      extract_price_from_text text currency = none ∧ parse_turkish_price text = none)
    ∧ extract_price_from_text ("$0") ("$") = some 0 := by
  constructor
  · intro text currency hnod
    constructor
    · unfold extract_price_from_text
      by_cases he : text.data = []
      · rw [if_pos he]
      · rw [if_neg he]
        rcases hf : tryPricePatterns (isEuCurrency currency) text.data pricePatterns with _ | v
        · rfl
        · obtain ⟨c, hc, hd⟩ :=
            tryPricePatterns_digit (isEuCurrency currency) text.data pricePatterns
              pricePatterns_req v hf
          rw [hnod c hc] at hd
          exact Bool.noConfusion hd
    · unfold parse_turkish_price
      by_cases he : text.data = []
      · rw [if_pos he]
      · rw [if_neg he]
        set cleaned := (trimWs text.data).filter (fun c => c.isDigit || c = '.' || c = ',') with hcl
        by_cases hce : cleaned = []
        · rw [if_pos hce]
        · rw [if_neg hce]
          rcases hf : pyFloat? ((cleaned.filter (fun c => c ≠ '.')).map
              (fun c => if c = ',' then '.' else c)) with _ | v
          · rfl
          · obtain ⟨c, hc, hd⟩ := pyFloat?_digit hf
            obtain ⟨c', hc', hfc⟩ := List.mem_map.mp hc
            have hc'' : c' ∈ text.data :=
              trimWs_mem (List.mem_of_mem_filter (List.mem_of_mem_filter hc'))
            by_cases hcomma : c' = ','
            · rw [hcomma] at hfc
              rw [if_pos rfl] at hfc
              rw [← hfc] at hd
              exact absurd hd (by decide)
            · rw [if_neg hcomma] at hfc
              rw [← hfc] at hd
              rw [hnod c' hc''] at hd
              exact Bool.noConfusion hd
  · with_unfolding_all rfl

/-- C8 witness: the no-digit clause applied at concrete text. -/
theorem price_parsing_safety_witness :
    extract_price_from_text ("no digits here!") ("$") = none
    ∧ parse_turkish_price ("no digits here!") = none :=
  price_parsing_safety_amended.1 ("no digits here!") ("$") (by decide)

theorem addScriptDedup_append (results script : List PriceResult) :
    ∃ extra, addScriptDedup results script = results ++ extra := by
  have hgen : ∀ (script : List PriceResult) (acc : List PriceResult)
      (names : List String),
      ∃ extra, (script.foldl
        (fun (acc : List PriceResult × List String) sr =>
          let n := lowerName sr
          if n ∈ acc.2 then acc else (acc.1 ++ [sr], acc.2 ++ [n]))
        (acc, names)).1 = acc ++ extra := by
    intro script
    induction script with
    | nil => intro acc names; exact ⟨[], by simp⟩
    | cons sr rest ih =>
      intro acc names
      rw [List.foldl_cons]
      dsimp only
      by_cases hmem : lowerName sr ∈ names
      · rw [if_pos hmem]
        exact ih acc names
      · rw [if_neg hmem]
        obtain ⟨extra, hextra⟩ := ih (acc ++ [sr]) (names ++ [lowerName sr])
        exact ⟨sr :: extra, by rw [hextra, List.append_assoc]; rfl⟩
  exact hgen script results (results.map lowerName)

/-- C6 counterexample: the spec's strategy order (structured data,
then embedded-script while below the threshold, then selector) is not
the source's order.  With no structured data, three selector
candidates, one script offer and a quota of 10, the source runs the
selector first and skips the script strategy (three offers have been
collected already), while the claimed order would begin with the
script offer. -/
theorem pipeline_order_counterexample :
    search_google_shopping_pipeline [] [offerA, offerB, offerC] [offerS] 10
      = [offerA, offerB, offerC]
    ∧ spec_claimed_pipeline [] [offerA, offerB, offerC] [offerS] 10
      = [offerS, offerA, offerB, offerC]
    ∧ ([offerA, offerB, offerC] : List PriceResult)
      ≠ [offerS, offerA, offerB, offerC] := by
  refine ⟨by with_unfolding_all rfl, by with_unfolding_all rfl, by simp⟩

/-- C6 amended: `search_google_shopping` runs structured data first,
then the selector-based HTML strategy (only while below
`max_results`, with the remaining budget), and the embedded-script
strategy last, only when fewer than 3 offers have been collected; the
pipeline returns at most `max_results` offers.  Consequences proved:
the output never exceeds `max_results`; when structured data already
fills the quota the other strategies contribute nothing; when
structured data alone reaches 3 offers the script strategy's output
is irrelevant. -/
theorem pipeline_order_amended :
    (∀ (j h s : List PriceResult) (max_results : Nat),
      (search_google_shopping_pipeline j h s max_results).length ≤ max_results)
    ∧ (∀ (j h s : List PriceResult) (max_results : Nat), max_results ≤ j.length →
        search_google_shopping_pipeline j h s max_results = j.take max_results)
    ∧ (∀ (j h s : List PriceResult) (max_results : Nat), 3 ≤ j.length →
        search_google_shopping_pipeline j h s max_results
          = search_google_shopping_pipeline j h [] max_results) := by
  refine ⟨?_, ?_, ?_⟩
  · intro j h s max_results
    unfold search_google_shopping_pipeline
    simp
  · intro j h s max_results hle
    unfold search_google_shopping_pipeline gsAfterHtml
    rw [if_neg (by omega)]
    unfold gsAfterScripts
    by_cases h3 : j.length < 3
    · rw [if_pos h3]
      obtain ⟨extra, hextra⟩ := addScriptDedup_append j s
      rw [hextra, List.take_append_of_le_length hle]
    · rw [if_neg h3]
  · intro j h s max_results h3
    unfold search_google_shopping_pipeline gsAfterScripts
    have hlen : max_results ≤ (gsAfterHtml j h max_results).length ∨
        j.length ≤ (gsAfterHtml j h max_results).length := by
      unfold gsAfterHtml
      by_cases hq : j.length < max_results
      · rw [if_pos hq]; right; simp
      · rw [if_neg hq]; right; exact le_refl _
    have h3' : ¬ (gsAfterHtml j h max_results).length < 3 := by
      unfold gsAfterHtml
      by_cases hq : j.length < max_results
      · rw [if_pos hq]; simp; omega
      · rw [if_neg hq]; omega
    rw [if_neg h3', if_neg h3']

/-- C6 witness: the quota and threshold clauses applied at concrete
strategy outputs. -/
theorem pipeline_order_amended_witness :
    search_google_shopping_pipeline [offerA, offerB] [offerC] [offerS] 2
      = [offerA, offerB].take 2
    ∧ search_google_shopping_pipeline [offerA, offerB, offerC] [] [offerS] 10
      = search_google_shopping_pipeline [offerA, offerB, offerC] [] [] 10 :=
  ⟨pipeline_order_amended.2.1 [offerA, offerB] [offerC] [offerS] 2 (by decide),
   pipeline_order_amended.2.2 [offerA, offerB, offerC] [] [offerS] 10 (by decide)⟩

/-- C9: a region outside `{us, tr, eu}` is rejected by
`search_products` with the 400 "unsupported region" error before any
source outcome is consulted — the result does not depend on the
source outcomes and is never a success (in particular never an empty
result list). -/
theorem unsupported_region_rejected :
    ∀ (q region : String) (max_results : Nat) (outcomes : List TaskOutcome),
      ¬ (region = "us" ∨ region = "tr" ∨ region = "eu") →
      (search_products q region max_results outcomes
          = .error (400, "Unsupported region. Use: us, tr, eu"))
      ∧ (∀ (outcomes' : List TaskOutcome),
          search_products q region max_results outcomes
            = search_products q region max_results outcomes')
      ∧ (∀ (resp : SearchResponse),
          search_products q region max_results outcomes ≠ .ok resp) := by
  intro q region max_results outcomes hreg
  have he : search_products q region max_results outcomes
      = .error (400, "Unsupported region. Use: us, tr, eu") := by
    unfold search_products
    rw [if_pos hreg]
  refine ⟨he, ?_, ?_⟩
  · intro outcomes'
    rw [he]
    unfold search_products
    rw [if_pos hreg]
  · intro resp
    rw [he]
    exact fun hcontra => Except.noConfusion hcontra

/-- C9 witness: the rejection applied at a concrete unknown region. -/
theorem unsupported_region_rejected_witness :
    search_products ("iphone") ("mars") 10 []
      = .error (400, "Unsupported region. Use: us, tr, eu") :=
  (unsupported_region_rejected ("iphone") ("mars") 10 [] (by decide)).1

/-- C7 witness: the general clauses applied at concrete labels. -/
theorem identify_platform_spec_witness :
    identify_platform (some ("Zed Shop")) ("us") = ("other", "Zed Shop")
    ∧ identify_platform (some ("Sold by Walmart")) ("us") = ("walmart", "Walmart") :=
  ⟨identify_platform_spec.2.1 ("Zed Shop") ("us") (by decide) (by decide),
   identify_platform_spec.2.2 ("Sold by Walmart") ("us")
     [("amazon", "amazon_us", "Amazon")]
     ("walmart", "walmart", "Walmart")
     [("best buy", "bestbuy", "Best Buy"),
      ("bestbuy", "bestbuy", "Best Buy"),
      ("target", "target", "Target"),
      ("ebay", "ebay", "eBay"),
      ("newegg", "newegg", "Newegg"),
      ("b&h", "bh", "B&H Photo"),
      ("trendyol", "trendyol", "Trendyol"),
      ("hepsiburada", "hepsiburada", "Hepsiburada"),
      ("n11", "n11", "n11"),
      ("mediamarkt", "mediamarkt", "MediaMarkt"),
      ("saturn", "saturn", "Saturn")]
     (by decide) (by decide) (by decide) (by decide)⟩

end Hype
